import Mathlib

/-!
Verification of the thermomatic connection-lifecycle engine against its
natural-language specification.

The Go sources are shallowly embedded:

* byte buffers are `List Nat` (each element a byte value `< 256`);
* `uint64` arithmetic is `Nat` arithmetic, with `% 2 ^ 64` written out at the
  operations where Go wrap-around can occur;
* IEEE-754 binary64 values are modelled by their 64-bit pattern together with
  an exact value semantics into `ℚ` (`float64Val`), and the Go float
  comparisons are modelled by `F64Val.flt` (false on NaN);
* fallible Go functions return `Except`/`Option`; a Go `panic` guard is
  modelled by an `Option`-returning wrapper (`none` = panic);
* the concurrent parts (token bucket, registry/acceptor) are embedded as
  small-step transition systems whose atomic steps are the individual
  lock-protected operations of the source, and the login loop is embedded as
  a function over a timed trace of read outcomes.
-/

/-! ## IMEI decoder (internal/imei/imei.go) -/

/-- Errors of the IMEI decoder (`ErrInvalid`, `ErrChecksum`). -/
inductive ImeiError
  | invalid
  | checksum
deriving DecidableEq, Repr

/-- Go `uint64(b[i] - zero)` where `zero = 48`: the subtraction happens on
`byte` (wrapping mod 256) and is then widened. -/
def goDigit (bi : Nat) : Nat := (bi + 256 - 48) % 256

/-- The summand the loop of `imei.Decode` adds for offset `i` (doubling the
digits at odd offsets, reducing by 9 when the double exceeds 9). -/
def luhnTerm (i digit : Nat) : Nat :=
  if i % 2 = 1 then (if 9 < digit * 2 then digit * 2 - 9 else digit * 2) else digit

/-- The loop of `imei.Decode`: walks the bytes, accumulating
`code = code*10 + digit` and the Luhn sum (the byte at offset 14 is excluded
from the sum); the first non-digit byte aborts with `ErrInvalid`. -/
def imeiDecodeCore : List Nat → Nat → Nat → Nat → Except ImeiError (Nat × Nat)
  | [], _, code, sum => .ok (code, sum)
  | bi :: rest, i, code, sum =>
    if 9 < goDigit bi then .error .invalid
    else imeiDecodeCore rest (i + 1) (code * 10 + goDigit bi)
        (if i = 14 then sum else sum + luhnTerm i (goDigit bi))

/-- Model of `imei.Decode` on a buffer of length at least 15 (the short-buffer panic is
modelled separately by `imeiDecodeRun`): decodes the first 15 bytes, then
compares the Luhn digit `(10 - sum % 10) % 10` with the byte at offset 14. -/
def imeiDecode (b : List Nat) : Except ImeiError Nat :=
  match imeiDecodeCore (b.take 15) 0 0 0 with
  | .error e => .error e
  | .ok (code, sum) =>
    if (10 - sum % 10) % 10 ≠ goDigit (b.getD 14 0) then .error .checksum
    else .ok code

/-- Model of `imei.Decode` including its panic guard: `none` models the
`panic("b invalid length")` taken exactly when the buffer is shorter than 15
bytes. -/
def imeiDecodeRun (b : List Nat) : Option (Except ImeiError Nat) :=
  if b.length < 15 then none else some (imeiDecode b)

/-! Specification-side notions for the IMEI claims. -/

/-- A byte is an ASCII digit. -/
def isDigitByte (bi : Nat) : Prop := 48 ≤ bi ∧ bi ≤ 57

instance (bi : Nat) : Decidable (isDigitByte bi) := by
  unfold isDigitByte; infer_instance

/-- Specification-side Luhn sum of a digit list indexed from `i`: every second
digit, counting from the right of the 14-digit payload (that is, the digits at
odd 0-based offsets 1, 3, …, 13, the rightmost payload digit among them), is
doubled and reduced by 9 when the double exceeds 9, and all terms are summed. -/
def luhnSumFrom : List Nat → Nat → Nat
  | [], _ => 0
  | d :: rest, i => luhnTerm i d + luhnSumFrom rest (i + 1)

/-- The Luhn check digit of a digit payload (most significant digit first). -/
def luhnCheckDigit (payload : List Nat) : Nat :=
  (10 - luhnSumFrom payload 0 % 10) % 10

/-- The digit value of an ASCII digit byte. -/
def digitVal (bi : Nat) : Nat := bi - 48

/-- The `n` decimal digits of `x < 10 ^ n`, most significant first. -/
def decDigits : Nat → Nat → List Nat
  | 0, _ => []
  | n + 1, x => x / 10 ^ n % 10 :: decDigits n x

/-- The 15 ASCII-decimal bytes of a 15-digit number. -/
def encodeDecimal (x : Nat) : List Nat := (decDigits 15 x).map (· + 48)

/-- A valid 15-digit IMEI: 15 decimal digits whose last digit is the Luhn
check digit of the first 14. -/
def validImei (x : Nat) : Prop :=
  x < 10 ^ 15 ∧ x % 10 = luhnCheckDigit ((decDigits 15 x).take 14)

instance (x : Nat) : Decidable (validImei x) := by
  unfold validImei; infer_instance

/-- The Luhn sum actually accumulated by the loop: the byte at offset 14 is
skipped. -/
def luhnSumSkipBytes : List Nat → Nat → Nat
  | [], _ => 0
  | bi :: rest, i =>
    (if i = 14 then 0 else luhnTerm i (goDigit bi)) + luhnSumSkipBytes rest (i + 1)

/-! Auxiliary lemmas about the decode loop. -/

theorem goDigit_of_digitByte {bi : Nat} (h : isDigitByte bi) :
    goDigit bi = bi - 48 := by
  obtain ⟨h1, h2⟩ := h
  unfold goDigit
  omega

theorem goDigit_le_nine_iff {bi : Nat} (h : bi < 256) :
    goDigit bi ≤ 9 ↔ isDigitByte bi := by
  unfold goDigit isDigitByte
  omega

theorem imeiDecodeCore_ok (l : List Nat) :
    ∀ i code sum, (∀ x ∈ l, goDigit x ≤ 9) →
      imeiDecodeCore l i code sum =
        .ok (l.foldl (fun c x => c * 10 + goDigit x) code,
             sum + luhnSumSkipBytes l i) := by
  induction l with
  | nil => intro i code sum _; simp [imeiDecodeCore, luhnSumSkipBytes]
  | cons bi rest ih =>
    intro i code sum hdig
    have h9 : ¬ 9 < goDigit bi := by
      have := hdig bi (by simp)
      omega
    have hrest : ∀ x ∈ rest, goDigit x ≤ 9 := fun x hx => hdig x (by simp [hx])
    simp only [imeiDecodeCore, if_neg h9, ih _ _ _ hrest, List.foldl_cons,
      luhnSumSkipBytes]
    by_cases h14 : i = 14 <;> simp [h14] <;> omega

theorem imeiDecodeCore_invalid (l : List Nat) :
    ∀ i code sum, (imeiDecodeCore l i code sum = .error .invalid ↔
      ∃ x ∈ l, 9 < goDigit x) := by
  induction l with
  | nil => intro i code sum; simp [imeiDecodeCore]
  | cons bi rest ih =>
    intro i code sum
    by_cases h : 9 < goDigit bi
    · simp [imeiDecodeCore, h]
    · simp only [imeiDecodeCore, if_neg h, ih]
      constructor
      · rintro ⟨x, hx, hx9⟩; exact ⟨x, by simp [hx], hx9⟩
      · rintro ⟨x, hx, hx9⟩
        rcases List.mem_cons.mp hx with rfl | hx
        · omega
        · exact ⟨x, hx, hx9⟩

theorem luhnSumSkipBytes_eq (l : List Nat) :
    ∀ (i x : Nat), i + l.length = 14 →
      luhnSumSkipBytes (l ++ [x]) i = luhnSumFrom (l.map goDigit) i := by
  induction l with
  | nil =>
    intro i x h
    simp at h
    simp [luhnSumSkipBytes, luhnSumFrom, h]
  | cons bi rest ih =>
    intro i x h
    have hi : i ≠ 14 := by simp at h; omega
    have := ih (i + 1) x (by simp at h ⊢; omega)
    simp [luhnSumSkipBytes, luhnSumFrom, hi, this]

theorem take15_split {b : List Nat} (h : 15 ≤ b.length) :
    ∃ c : Nat, b.take 15 = b.take 14 ++ [c] ∧ b.getD 14 0 = c := by
  have h14 : 14 < b.length := by omega
  refine ⟨b.get ⟨14, h14⟩, ?_, ?_⟩
  · rw [List.take_succ]
    congr 1
    rw [List.getElem?_eq_getElem h14]
    rfl
  · simp [List.getD_eq_getElem?_getD, List.getElem?_eq_getElem h14]

theorem foldl_goDigit_eq_digitVal (l : List Nat) (hl : ∀ x ∈ l, isDigitByte x) :
    ∀ a, l.foldl (fun c x => c * 10 + goDigit x) a
      = l.foldl (fun c x => c * 10 + digitVal x) a := by
  induction l with
  | nil => intro a; rfl
  | cons x rest ih =>
    intro a
    have hx := goDigit_of_digitByte (hl x (by simp))
    simp only [List.foldl_cons, hx, digitVal]
    exact ih (fun y hy => hl y (by simp [hy])) _

theorem map_goDigit_eq_digitVal (l : List Nat) (hl : ∀ x ∈ l, isDigitByte x) :
    l.map goDigit = l.map digitVal :=
  List.map_congr_left fun x hx => by
    rw [goDigit_of_digitByte (hl x hx)]; rfl

/-- Main helper: on a buffer whose first 15 bytes are ASCII digits with a
correct Luhn check digit, `imei.Decode` succeeds with the accumulated code. -/
theorem imeiDecode_digits (b : List Nat) (hlen : 15 ≤ b.length)
    (hdig : ∀ x ∈ b.take 15, isDigitByte x)
    (hluhn : goDigit (b.getD 14 0) = luhnCheckDigit ((b.take 14).map digitVal)) :
    imeiDecode b = .ok (((b.take 15).map digitVal).foldl (fun c d => c * 10 + d) 0) := by
  obtain ⟨c14, hsplit, hc14⟩ := take15_split hlen
  have hsub : ∀ x ∈ b.take 14, x ∈ b.take 15 := by
    intro x hx
    rw [hsplit]
    exact List.mem_append_left _ hx
  have hdig14 : ∀ x ∈ b.take 14, isDigitByte x := fun x hx => hdig x (hsub x hx)
  have hgo : ∀ x ∈ b.take 15, goDigit x ≤ 9 := by
    intro x hx
    have := goDigit_of_digitByte (hdig x hx)
    have := (hdig x hx).2
    omega
  have hlen14 : (b.take 14).length = 14 := by
    rw [List.length_take]; omega
  have hsum : luhnSumSkipBytes (b.take 15) 0 = luhnSumFrom ((b.take 14).map digitVal) 0 := by
    rw [hsplit, luhnSumSkipBytes_eq _ 0 c14 (by omega),
      map_goDigit_eq_digitVal _ hdig14]
  unfold imeiDecode
  rw [imeiDecodeCore_ok _ 0 0 0 hgo]
  simp only [Nat.zero_add, hsum]
  have hne : ¬ ((10 - luhnSumFrom ((b.take 14).map digitVal) 0 % 10) % 10
      ≠ goDigit (b.getD 14 0)) := by
    rw [hluhn]; unfold luhnCheckDigit; simp
  rw [if_neg hne]
  rw [List.foldl_map, foldl_goDigit_eq_digitVal _ hdig]

theorem decDigits_length (n x : Nat) : (decDigits n x).length = n := by
  induction n generalizing x with
  | zero => rfl
  | succ n ih => simp [decDigits, ih]

theorem decDigits_le_nine (n x : Nat) : ∀ d ∈ decDigits n x, d ≤ 9 := by
  induction n generalizing x with
  | zero => simp [decDigits]
  | succ n ih =>
    intro d hd
    rcases List.mem_cons.mp hd with rfl | hd
    · omega
    · exact ih x d hd

theorem decDigits_foldl (n x : Nat) :
    ∀ a, (decDigits n x).foldl (fun c d => c * 10 + d) a = a * 10 ^ n + x % 10 ^ n := by
  induction n with
  | zero => intro a; simp [decDigits, Nat.mod_one]
  | succ n ih =>
    intro a
    have hmod : x % 10 ^ (n + 1) = x % 10 ^ n + 10 ^ n * (x / 10 ^ n % 10) := by
      rw [pow_succ, Nat.mod_mul]
    simp only [decDigits, List.foldl_cons, ih, hmod]
    ring

theorem decDigits_getD_last (n x : Nat) (h : 1 ≤ n) :
    (decDigits n x).getD (n - 1) 0 = x % 10 := by
  induction n generalizing x with
  | zero => omega
  | succ n ih =>
    by_cases hn : n = 0
    · subst hn; simp [decDigits]
    · have : n + 1 - 1 = (n - 1) + 1 := by omega
      rw [decDigits, this, List.getD_cons_succ, ih x (by omega)]

theorem encodeDecimal_digits (x : Nat) :
    ∀ y ∈ encodeDecimal x, isDigitByte y := by
  intro y hy
  obtain ⟨d, hd, rfl⟩ := List.mem_map.mp hy
  have := decDigits_le_nine 15 x d hd
  constructor <;> omega

theorem encodeDecimal_length (x : Nat) : (encodeDecimal x).length = 15 := by
  simp [encodeDecimal, decDigits_length]

theorem encodeDecimal_take15 (x : Nat) : (encodeDecimal x).take 15 = encodeDecimal x := by
  apply List.take_of_length_le
  rw [encodeDecimal_length]

theorem encodeDecimal_getD14 (x : Nat) :
    (encodeDecimal x).getD 14 0 = x % 10 + 48 := by
  have h14 : 14 < (decDigits 15 x).length := by rw [decDigits_length]; omega
  rw [encodeDecimal, List.getD_eq_getElem?_getD, List.getElem?_map,
    List.getElem?_eq_getElem h14]
  have : (decDigits 15 x).getD 14 0 = x % 10 := decDigits_getD_last 15 x (by omega)
  rw [List.getD_eq_getElem?_getD, List.getElem?_eq_getElem h14] at this
  simp_all

theorem map_digitVal_encodeDecimal (l : List Nat) :
    (l.map (· + 48)).map digitVal = l := by
  rw [List.map_map]
  have : (digitVal ∘ (· + 48)) = id := by
    funext d; simp [digitVal]
  rw [this, List.map_id]

/-- C2: on a buffer whose first 15 bytes are ASCII digits and whose 15th digit
is the Luhn check digit of the first 14, `imei.Decode` succeeds and returns the
integer accumulated by `code = code*10 + digit` over the 15 digits;
equivalently, decoding the 15 ASCII-decimal bytes of a valid 15-digit IMEI `x`
yields `x`. -/
theorem imei_decode_accepts_valid :
    (∀ b : List Nat, 15 ≤ b.length →
      (∀ x ∈ b.take 15, isDigitByte x) →
      goDigit (b.getD 14 0) = luhnCheckDigit ((b.take 14).map digitVal) →
      imeiDecode b = .ok (((b.take 15).map digitVal).foldl (fun c d => c * 10 + d) 0))
    ∧ (∀ x : Nat, validImei x → imeiDecode (encodeDecimal x) = .ok x) := by
  constructor
  · exact imeiDecode_digits
  · intro x hx
    obtain ⟨hlt, hcheck⟩ := hx
    have htake14 : ((encodeDecimal x).take 14).map digitVal = (decDigits 15 x).take 14 := by
      rw [encodeDecimal, ← List.map_take, map_digitVal_encodeDecimal]
    have hg : goDigit ((encodeDecimal x).getD 14 0)
        = luhnCheckDigit (((encodeDecimal x).take 14).map digitVal) := by
      rw [encodeDecimal_getD14, goDigit_of_digitByte (by constructor <;> omega),
        htake14]
      omega
    have hres := imeiDecode_digits (encodeDecimal x)
      (by rw [encodeDecimal_length]) (by rw [encodeDecimal_take15]; exact encodeDecimal_digits x) hg
    rw [hres, encodeDecimal_take15, encodeDecimal, map_digitVal_encodeDecimal,
      decDigits_foldl, Nat.zero_mul, Nat.zero_add, Nat.mod_eq_of_lt hlt]

/-- Witness for C2: the spec's concrete valid IMEI 490154203237518 decodes to
itself. -/
theorem imei_decode_accepts_valid_witness :
    validImei 490154203237518 ∧
      imeiDecode (encodeDecimal 490154203237518) = .ok 490154203237518 :=
  ⟨by decide, imei_decode_accepts_valid.2 490154203237518 (by decide)⟩

/-- C3: on a buffer of at least 15 bytes, `imei.Decode` fails with `ErrInvalid`
exactly when one of the first 15 bytes is not an ASCII digit, fails with
`ErrChecksum` exactly when all 15 are digits but the 15th is not the Luhn check
digit of the first 14, and succeeds otherwise (the error type has no further
case). -/
theorem imei_decode_errors (b : List Nat) (hlen : 15 ≤ b.length)
    (hbytes : ∀ x ∈ b.take 15, x < 256) :
    (imeiDecode b = .error .invalid ↔ ∃ x ∈ b.take 15, ¬ isDigitByte x)
    ∧ (imeiDecode b = .error .checksum ↔
        ((∀ x ∈ b.take 15, isDigitByte x) ∧
          goDigit (b.getD 14 0) ≠ luhnCheckDigit ((b.take 14).map digitVal)))
    ∧ ((∃ code, imeiDecode b = .ok code) ↔
        ((∀ x ∈ b.take 15, isDigitByte x) ∧
          goDigit (b.getD 14 0) = luhnCheckDigit ((b.take 14).map digitVal))) := by
  obtain ⟨c14, hsplit, hc14⟩ := take15_split hlen
  by_cases hall : ∀ x ∈ b.take 15, isDigitByte x
  · have hgo : ∀ x ∈ b.take 15, goDigit x ≤ 9 := by
      intro x hx
      have := goDigit_of_digitByte (hall x hx)
      have := (hall x hx).2
      omega
    have hsub : ∀ x ∈ b.take 14, x ∈ b.take 15 := by
      intro x hx
      rw [hsplit]
      exact List.mem_append_left _ hx
    have hlen14 : (b.take 14).length = 14 := by
      rw [List.length_take]; omega
    have hsum : luhnSumSkipBytes (b.take 15) 0
        = luhnSumFrom ((b.take 14).map digitVal) 0 := by
      rw [hsplit, luhnSumSkipBytes_eq _ 0 c14 (by omega),
        map_goDigit_eq_digitVal _ (fun x hx => hall x (hsub x hx))]
    have hcore := imeiDecodeCore_ok (b.take 15) 0 0 0 hgo
    by_cases hch : goDigit (b.getD 14 0) = luhnCheckDigit ((b.take 14).map digitVal)
    · have hok := imeiDecode_digits b hlen hall hch
      refine ⟨?_, ?_, ?_⟩
      · simp only [hok]
        constructor
        · intro h; cases h
        · rintro ⟨x, hx, hxd⟩; exact absurd (hall x hx) hxd
      · simp only [hok]
        constructor
        · intro h; cases h
        · rintro ⟨_, hne⟩; exact absurd hch hne
      · exact ⟨fun _ => ⟨hall, hch⟩, fun _ => ⟨_, hok⟩⟩
    · have hcond : (10 - luhnSumSkipBytes (b.take 15) 0 % 10) % 10
          ≠ goDigit (b.getD 14 0) := by
        rw [hsum]
        intro hEq
        exact hch (by unfold luhnCheckDigit; exact hEq.symm)
      have hdec : imeiDecode b = .error .checksum := by
        unfold imeiDecode
        rw [hcore]
        rw [List.getD_eq_getElem?_getD] at hcond
        simp [hcond]
      refine ⟨?_, ?_, ?_⟩
      · rw [hdec]
        constructor
        · intro h; simp at h
        · rintro ⟨x, hx, hxd⟩; exact absurd (hall x hx) hxd
      · rw [hdec]
        exact ⟨fun _ => ⟨hall, hch⟩, fun _ => rfl⟩
      · rw [hdec]
        constructor
        · rintro ⟨c, hc⟩; simp at hc
        · rintro ⟨_, hEq⟩; exact absurd hEq hch
  · push_neg at hall
    obtain ⟨x, hx, hxd⟩ := hall
    have hinv : imeiDecode b = .error .invalid := by
      unfold imeiDecode
      have : imeiDecodeCore (b.take 15) 0 0 0 = .error .invalid := by
        rw [imeiDecodeCore_invalid]
        refine ⟨x, hx, ?_⟩
        have hb := hbytes x hx
        by_contra h9
        push_neg at h9
        exact hxd ((goDigit_le_nine_iff hb).mp h9)
      rw [this]
    refine ⟨?_, ?_, ?_⟩
    · exact ⟨fun _ => ⟨x, hx, hxd⟩, fun _ => hinv⟩
    · simp only [hinv]
      constructor
      · intro h; cases h
      · rintro ⟨hd, _⟩; exact absurd (hd x hx) hxd
    · simp only [hinv]
      constructor
      · rintro ⟨c, hc⟩; cases hc
      · rintro ⟨hd, _⟩; exact absurd (hd x hx) hxd

/-- Witness for C3, applied to a buffer whose 8th byte is an ASCII letter. -/
theorem imei_decode_errors_witness :
    imeiDecode [52, 57, 48, 49, 53, 52, 50, 97, 51, 50, 51, 55, 53, 49, 56]
      = .error .invalid :=
  (imei_decode_errors
    [52, 57, 48, 49, 53, 52, 50, 97, 51, 50, 51, 55, 53, 49, 56]
    (by decide) (by decide)).1.mpr (by decide)

/-! ## IEEE-754 binary64 values (math.Float64frombits and Go float comparison) -/

/-- The value of an IEEE-754 binary64 bit pattern: NaN, a signed infinity, or
an exact rational. -/
inductive F64Val
  | nan
  | inf (neg : Bool)
  | fin (q : ℚ)
deriving DecidableEq

/-- Numerator of a finite binary64 value over the common denominator
`2 ^ 1074`: subnormals are `m`, normals are `(2^52 + m) * 2^(e-1)`. -/
def f64Num (e m : Nat) : Nat := if e = 0 then m else (2 ^ 52 + m) * 2 ^ (e - 1)

/-- Value semantics of a 64-bit pattern as an IEEE-754 binary64
(`math.Float64frombits`): sign bit 63, 11 exponent bits, 52 mantissa bits. -/
def float64Val (bits : Nat) : F64Val :=
  let s := bits / 2 ^ 63 % 2
  let e := bits / 2 ^ 52 % 2 ^ 11
  let m := bits % 2 ^ 52
  if e = 2047 then (if m = 0 then .inf (s == 1) else .nan)
  else
    let q : ℚ := ((f64Num e m : Nat) : ℚ) / ((2 ^ 1074 : Nat) : ℚ)
    .fin (if s == 1 then -q else q)

/-- Go float comparison `x < y`: false whenever either side is NaN. -/
def F64Val.flt : F64Val → F64Val → Bool
  | .nan, _ => false
  | _, .nan => false
  | .inf n1, .inf n2 => n1 && !n2
  | .inf n1, .fin _ => n1
  | .fin _, .inf n2 => !n2
  | .fin a, .fin b => decide (a < b)

/-! ## Reading decoder and encoder (internal/client reading code) -/

/-- The `Reading` struct; each field holds the 64-bit pattern of its float64
value (equality of patterns is equality of the Go values, NaN payloads
aside). -/
structure Reading where
  temperature : Nat
  altitude : Nat
  latitude : Nat
  longitude : Nat
  batteryLevel : Nat
deriving DecidableEq, Repr

/-- Model of `binary.BigEndian.Uint64`: the 8 bytes of `b` starting at `off`. -/
def readBE64 (b : List Nat) (off : Nat) : Nat :=
  b.getD off 0 * 2 ^ 56 + b.getD (off + 1) 0 * 2 ^ 48 +
  b.getD (off + 2) 0 * 2 ^ 40 + b.getD (off + 3) 0 * 2 ^ 32 +
  b.getD (off + 4) 0 * 2 ^ 24 + b.getD (off + 5) 0 * 2 ^ 16 +
  b.getD (off + 6) 0 * 2 ^ 8 + b.getD (off + 7) 0

/-- The Go range test `v < lo || v > hi` on a float64 bit pattern; false on
NaN, which therefore passes every range check of the decoder. -/
def f64Outside (bits : Nat) (lo hi : ℚ) : Bool :=
  F64Val.flt (float64Val bits) (.fin lo) || F64Val.flt (.fin hi) (float64Val bits)

/-- The typed decode error: which field failed its range check, carrying the
offending value (as its bit pattern). -/
inductive FieldError
  | temperature (bits : Nat)
  | altitude (bits : Nat)
  | latitude (bits : Nat)
  | longitude (bits : Nat)
  | batteryLevel (bits : Nat)
deriving DecidableEq, Repr

/-- Model of `Reading.Decode` on a buffer of length at least 40 (the short-buffer panic
is modelled by `readingDecodeRun`): reads the five big-endian doubles at
offsets 0, 8, 16, 24, 32, range-checks each in turn, short-circuiting on the
first failure, and assigns each passing field of the receiver in place
(mirroring the partial in-place mutation of the Go method). -/
def Reading.decode (r0 : Reading) (b : List Nat) : Reading × Option FieldError :=
  let temp := readBE64 b 0
  if f64Outside temp (-300) 300 then (r0, some (.temperature temp)) else
  let r1 : Reading := { r0 with temperature := temp }
  let alt := readBE64 b 8
  if f64Outside alt (-20000) 20000 then (r1, some (.altitude alt)) else
  let r2 : Reading := { r1 with altitude := alt }
  let lat := readBE64 b 16
  if f64Outside lat (-90) 90 then (r2, some (.latitude lat)) else
  let r3 : Reading := { r2 with latitude := lat }
  let long := readBE64 b 24
  if f64Outside long (-180) 180 then (r3, some (.longitude long)) else
  let r4 : Reading := { r3 with longitude := long }
  let batteryLvl := readBE64 b 32
  if f64Outside batteryLvl 0 100 then (r4, some (.batteryLevel batteryLvl)) else
  ({ r4 with batteryLevel := batteryLvl }, none)

/-- Model of `Reading.Decode` including its panic guard: `none` models the
`panic("invalid payload, too short")` taken exactly when the buffer is shorter
than 40 bytes. -/
def readingDecodeRun (r0 : Reading) (b : List Nat) :
    Option (Reading × Option FieldError) :=
  if b.length < 40 then none else some (r0.decode b)

/-- The 8 big-endian bytes of a 64-bit value (`binary.BigEndian.PutUint64`). -/
def beBytes (v : Nat) : List Nat :=
  [v / 2 ^ 56 % 256, v / 2 ^ 48 % 256, v / 2 ^ 40 % 256, v / 2 ^ 32 % 256,
   v / 2 ^ 24 % 256, v / 2 ^ 16 % 256, v / 2 ^ 8 % 256, v % 256]

/-- Model of `Reading.Encode`: the five fields, 8 big-endian bytes each, in declaration
order. -/
def Reading.encode (r : Reading) : List Nat :=
  beBytes r.temperature ++ (beBytes r.altitude ++ (beBytes r.latitude ++
    (beBytes r.longitude ++ beBytes r.batteryLevel)))

/-! Specification-side notions for the reading claims. -/

/-- A bit pattern lies within the inclusive range `lo..hi`: it denotes a
finite value `q` with `lo ≤ q ≤ hi` (a NaN or infinity lies within no
range). -/
def f64InRange (bits : Nat) (lo hi : ℚ) : Bool :=
  match float64Val bits with
  | .fin q => decide (lo ≤ q ∧ q ≤ hi)
  | _ => false

/-- One range check of the reading decoder: the field value read from the
buffer, its bounds, and the error constructor identifying the field. -/
structure RangeCheck where
  bits : Nat
  lo : ℚ
  hi : ℚ
  mkErr : Nat → FieldError

/-- The five range checks in offset order. -/
def rangeChecks (b : List Nat) : List RangeCheck :=
  [⟨readBE64 b 0, -300, 300, FieldError.temperature⟩,
   ⟨readBE64 b 8, -20000, 20000, FieldError.altitude⟩,
   ⟨readBE64 b 16, -90, 90, FieldError.latitude⟩,
   ⟨readBE64 b 24, -180, 180, FieldError.longitude⟩,
   ⟨readBE64 b 32, 0, 100, FieldError.batteryLevel⟩]

/-- Specification-side first failing field, in offset order. -/
def firstFailure (b : List Nat) : Option FieldError :=
  ((rangeChecks b).find? fun c => f64Outside c.bits c.lo c.hi).map
    fun c => c.mkErr c.bits

/-- A bit pattern strictly inside the range `lo..hi`. -/
def f64StrictInside (bits : Nat) (lo hi : ℚ) : Prop :=
  ∃ q, float64Val bits = .fin q ∧ lo < q ∧ q < hi

/-! Concrete buffers and readings used by the reading-decoder claims. -/

/-- A 40-byte buffer whose temperature field is a (quiet) NaN pattern
`0x7FF8000000000000` and whose remaining four fields are `0.0`. -/
def nanBuf : List Nat :=
  [127, 248, 0, 0, 0, 0, 0, 0,
   0, 0, 0, 0, 0, 0, 0, 0,
   0, 0, 0, 0, 0, 0, 0, 0,
   0, 0, 0, 0, 0, 0, 0, 0,
   0, 0, 0, 0, 0, 0, 0, 0]

/-- The zero `Reading` (all five fields `0.0`). -/
def zeroReading : Reading := ⟨0, 0, 0, 0, 0⟩

/-- The `Reading` whose five fields are all `1.0`
(`0x3FF0000000000000`). -/
def oneReading : Reading :=
  ⟨4607182418800017408, 4607182418800017408, 4607182418800017408,
   4607182418800017408, 4607182418800017408⟩

/-- C1 counterexample: on `nanBuf` (length 40), `Reading.Decode` succeeds even
though the temperature double is NaN and so does not lie within the inclusive
range −300..300; the claimed equivalence "succeeds iff every field lies within
its range" is false at this buffer. -/
theorem reading_decode_range_counterexample :
    ¬ (((zeroReading.decode nanBuf).2 = none) ↔
      (f64InRange (readBE64 nanBuf 0) (-300) 300 = true ∧
       f64InRange (readBE64 nanBuf 8) (-20000) 20000 = true ∧
       f64InRange (readBE64 nanBuf 16) (-90) 90 = true ∧
       f64InRange (readBE64 nanBuf 24) (-180) 180 = true ∧
       f64InRange (readBE64 nanBuf 32) 0 100 = true)) := by
  have e0 : readBE64 nanBuf 0 = 9221120237041090560 := rfl
  have e8 : readBE64 nanBuf 8 = 0 := rfl
  have e16 : readBE64 nanBuf 16 = 0 := rfl
  have e24 : readBE64 nanBuf 24 = 0 := rfl
  have e32 : readBE64 nanBuf 32 = 0 := rfl
  have hv : float64Val 9221120237041090560 = .nan := by norm_num [float64Val]
  have h0 : float64Val 0 = .fin 0 := by norm_num [float64Val, f64Num]
  have o1 : f64Outside 9221120237041090560 (-300) 300 = false := by
    simp [f64Outside, hv, F64Val.flt]
  have o2 : f64Outside 0 (-20000) 20000 = false := by
    norm_num [f64Outside, h0, F64Val.flt]
  have o3 : f64Outside 0 (-90) 90 = false := by
    norm_num [f64Outside, h0, F64Val.flt]
  have o4 : f64Outside 0 (-180) 180 = false := by
    norm_num [f64Outside, h0, F64Val.flt]
  have o5 : f64Outside 0 0 100 = false := by
    norm_num [f64Outside, h0, F64Val.flt]
  have hsucc : (zeroReading.decode nanBuf).2 = none := by
    simp [Reading.decode, e0, e8, e16, e24, e32, o1, o2, o3, o4, o5]
  intro h
  have h1 := (h.mp hsucc).1
  rw [e0] at h1
  rw [f64InRange, hv] at h1
  cases h1

/-- C1 as amended: on any buffer of at least 40 bytes, the decoder's result is
the first field (in offset order 0, 8, 16, 24, 32) whose value compares
outside its range under Go float comparison, carrying that field and its
value, and it succeeds iff no field compares outside; a field compares outside
iff it is neither within the inclusive range nor NaN (so the inclusive
endpoints are accepted, and so is NaN, which compares false). -/
theorem reading_decode_range_characterization :
    (∀ (b : List Nat) (r0 : Reading), 40 ≤ b.length →
      ((r0.decode b).2 = firstFailure b ∧
       (((r0.decode b).2 = none) ↔
         ∀ c ∈ rangeChecks b, f64Outside c.bits c.lo c.hi = false)))
    ∧ (∀ (bits : Nat) (lo hi : ℚ), f64Outside bits lo hi = false ↔
        (f64InRange bits lo hi = true ∨ float64Val bits = .nan)) := by
  constructor
  · intro b r0 _
    by_cases h1 : f64Outside (readBE64 b 0) (-300) 300 <;>
    by_cases h2 : f64Outside (readBE64 b 8) (-20000) 20000 <;>
    by_cases h3 : f64Outside (readBE64 b 16) (-90) 90 <;>
    by_cases h4 : f64Outside (readBE64 b 24) (-180) 180 <;>
    by_cases h5 : f64Outside (readBE64 b 32) 0 100 <;>
    simp [Reading.decode, firstFailure, rangeChecks, h1, h2, h3, h4, h5]
  · intro bits lo hi
    rcases hval : float64Val bits with _ | n | q
    · simp [f64Outside, f64InRange, hval, F64Val.flt]
    · cases n <;> simp [f64Outside, f64InRange, hval, F64Val.flt]
    · simp [f64Outside, f64InRange, hval, F64Val.flt, not_lt]

/-- Witness for the amended C1, applied at the NaN buffer. -/
theorem reading_decode_range_characterization_witness :
    (zeroReading.decode nanBuf).2 = firstFailure nanBuf :=
  (reading_decode_range_characterization.1 nanBuf zeroReading (by decide)).1

/-! Round-trip (C8) and panic guards (C9). -/

theorem readBE64_encode_0 (r : Reading) (h : r.temperature < 2 ^ 64) :
    readBE64 r.encode 0 = r.temperature := by
  simp [readBE64, Reading.encode, beBytes]
  omega

theorem readBE64_encode_8 (r : Reading) (h : r.altitude < 2 ^ 64) :
    readBE64 r.encode 8 = r.altitude := by
  simp [readBE64, Reading.encode, beBytes]
  omega

theorem readBE64_encode_16 (r : Reading) (h : r.latitude < 2 ^ 64) :
    readBE64 r.encode 16 = r.latitude := by
  simp [readBE64, Reading.encode, beBytes]
  omega

theorem readBE64_encode_24 (r : Reading) (h : r.longitude < 2 ^ 64) :
    readBE64 r.encode 24 = r.longitude := by
  simp [readBE64, Reading.encode, beBytes]
  omega

theorem readBE64_encode_32 (r : Reading) (h : r.batteryLevel < 2 ^ 64) :
    readBE64 r.encode 32 = r.batteryLevel := by
  simp [readBE64, Reading.encode, beBytes]
  omega

theorem f64Outside_of_strictInside {bits : Nat} {lo hi : ℚ}
    (h : f64StrictInside bits lo hi) : f64Outside bits lo hi = false := by
  obtain ⟨q, hq, h1, h2⟩ := h
  simp [f64Outside, hq, F64Val.flt, not_lt]
  constructor <;> linarith

/-- C8: for any reading all of whose five fields are strictly inside their
valid ranges, decoding the 40-byte buffer produced by `Reading.Encode` (into
any receiver) succeeds and yields that reading back. -/
theorem reading_roundtrip (r r0 : Reading)
    (hwf : r.temperature < 2 ^ 64 ∧ r.altitude < 2 ^ 64 ∧ r.latitude < 2 ^ 64 ∧
      r.longitude < 2 ^ 64 ∧ r.batteryLevel < 2 ^ 64)
    (ht : f64StrictInside r.temperature (-300) 300)
    (ha : f64StrictInside r.altitude (-20000) 20000)
    (hla : f64StrictInside r.latitude (-90) 90)
    (hlo : f64StrictInside r.longitude (-180) 180)
    (hb : f64StrictInside r.batteryLevel 0 100) :
    r0.decode r.encode = (r, none) := by
  obtain ⟨w1, w2, w3, w4, w5⟩ := hwf
  have e0 := readBE64_encode_0 r w1
  have e8 := readBE64_encode_8 r w2
  have e16 := readBE64_encode_16 r w3
  have e24 := readBE64_encode_24 r w4
  have e32 := readBE64_encode_32 r w5
  simp only [Reading.decode, e0, e8, e16, e24, e32,
    f64Outside_of_strictInside ht, f64Outside_of_strictInside ha,
    f64Outside_of_strictInside hla, f64Outside_of_strictInside hlo,
    f64Outside_of_strictInside hb, Bool.false_eq_true, if_false]

theorem float64Val_oneBits : float64Val 4607182418800017408 = .fin 1 := by
  norm_num [float64Val, f64Num]

/-- Witness for C8: the all-ones reading (every field `1.0`) round-trips. -/
theorem reading_roundtrip_witness :
    zeroReading.decode oneReading.encode = (oneReading, none) :=
  reading_roundtrip oneReading zeroReading
    (by refine ⟨?_, ?_, ?_, ?_, ?_⟩ <;> norm_num [oneReading])
    ⟨1, float64Val_oneBits, by norm_num, by norm_num⟩
    ⟨1, float64Val_oneBits, by norm_num, by norm_num⟩
    ⟨1, float64Val_oneBits, by norm_num, by norm_num⟩
    ⟨1, float64Val_oneBits, by norm_num, by norm_num⟩
    ⟨1, float64Val_oneBits, by norm_num, by norm_num⟩

/-- C9: each decoder panics exactly on a short buffer — `imei.Decode` iff the
buffer is shorter than 15 bytes, `Reading.Decode` iff shorter than 40 bytes —
and neither panics on a buffer of at least the required length. -/
theorem decoder_short_buffer_panics :
    ∀ (b : List Nat) (r0 : Reading),
      (imeiDecodeRun b = none ↔ b.length < 15)
      ∧ (readingDecodeRun r0 b = none ↔ b.length < 40) := by
  intro b r0
  constructor
  · unfold imeiDecodeRun
    by_cases h : b.length < 15 <;> simp [h]
  · unfold readingDecodeRun
    by_cases h : b.length < 40 <;> simp [h]

/-! ## HTTP readings endpoint (internal/server/http.go, handleReadings) -/

/-- Characters allowed in a decimal-number token. -/
def numeralChars : List Char :=
  ['0', '1', '2', '3', '4', '5', '6', '7', '8', '9', '-', '+', '.', 'e', 'E']

/-- The handler path literal `/readings/`. -/
def readingsPath : List Char := "/readings/".toList

/-- Model of `strconv.Atoi` on a string of ASCII digits. -/
def atoiDigits (ds : List Char) : Nat :=
  ds.foldl (fun a c => a * 10 + (c.toNat - 48)) 0

/-- The body written for a found client:
`json.NewEncoder(w).Encode(Response)`, where `Response` wraps the `Reading`:
a JSON object with the single field `Reading` holding an object with the five
reading fields in declaration order; the encoder terminates the body with a
newline. `fmt` is the rendering of one float64 as a JSON number — Go
standard-library behaviour, and a parameter of the model: the theorems hold
for every `fmt`. -/
def jsonReadingBody (fmt : Nat → List Char) (r : Reading) : List Char :=
  "\x7b\"Reading\":\x7b\"Temperature\":".toList ++ fmt r.temperature ++
  ",\"Altitude\":".toList ++ fmt r.altitude ++
  ",\"Latitude\":".toList ++ fmt r.latitude ++
  ",\"Longitude\":".toList ++ fmt r.longitude ++
  ",\"BatteryLevel\":".toList ++ fmt r.batteryLevel ++
  "\x7d\x7d\n".toList

/-- Model of `http.Error`: the status code, with the status text and a newline as
body. -/
def httpError (status : Nat) (text : List Char) : Nat × List Char :=
  (status, text ++ ['\n'])

/-- Whether a float64 bit pattern denotes a finite value (neither NaN nor an
infinity). -/
def f64IsFinite (bits : Nat) : Bool :=
  match float64Val bits with
  | .fin _ => true
  | _ => false

/-- Whether `encoding/json` can marshal the response: Go's float64 encoder
fails with an `UnsupportedValueError` on NaN and on the infinities, so the
marshal succeeds exactly when all five fields of the reading are finite. (NaN
fields are reachable here: the reading decoder accepts them, per the C1
correction.) -/
def jsonEncodable (r : Reading) : Bool :=
  f64IsFinite r.temperature && f64IsFinite r.altitude && f64IsFinite r.latitude
    && f64IsFinite r.longitude && f64IsFinite r.batteryLevel

/-- Model of `Server.handleReadings` as a function of the request method, the request
URI, and the registry (`clientMap.Load` restricted to the last reading, which
is all the response depends on): the regex `^(/readings/)(\d{15})$` gives 404
on mismatch; `Atoi` cannot fail on 15 digits; a non-GET method gives 405; on
GET, a missing IMEI gives 204 (`StatusNoContent` via `http.Error`), and for a
present one `json.NewEncoder(w).Encode(response)` writes the 200 JSON body
when the reading is marshallable and otherwise fails without writing, after
which the handler answers 500 (`StatusInternalServerError` via
`http.Error`). -/
def handleReadings (fmt : Nat → List Char) (registry : Nat → Option Reading)
    (method : List Char) (uri : List Char) : Nat × List Char :=
  if (uri.take 10 = readingsPath ∧ (uri.drop 10).length = 15
      ∧ ∀ c ∈ uri.drop 10, c.isDigit = true) then
    if method = "GET".toList then
      match registry (atoiDigits (uri.drop 10)) with
      | none => httpError 204 ("No Content".toList)
      | some r =>
        if jsonEncodable r then (200, jsonReadingBody fmt r)
        else httpError 500 ("Internal Server Error".toList)
    else httpError 405 ("Method Not Allowed".toList)
  else httpError 404 ("Not Found".toList)

/-- Specification-side body shape claimed for a found reading: five nonempty
decimal-number tokens joined by commas. -/
def isCsv5 (body : List Char) : Prop :=
  ∃ n1 n2 n3 n4 n5 : List Char,
    (n1 ≠ [] ∧ ∀ c ∈ n1, c ∈ numeralChars) ∧
    (n2 ≠ [] ∧ ∀ c ∈ n2, c ∈ numeralChars) ∧
    (n3 ≠ [] ∧ ∀ c ∈ n3, c ∈ numeralChars) ∧
    (n4 ≠ [] ∧ ∀ c ∈ n4, c ∈ numeralChars) ∧
    (n5 ≠ [] ∧ ∀ c ∈ n5, c ∈ numeralChars) ∧
    body = n1 ++ [','] ++ n2 ++ [','] ++ n3 ++ [','] ++ n4 ++ [','] ++ n5

/-- A registry holding the spec's IMEI 490154203237518 with the zero
reading. -/
def registry490 : Nat → Option Reading :=
  fun i => if i = 490154203237518 then some zeroReading else none

/-- A stand-in for Go's JSON float64 rendering; on the bit pattern 0 (the only
one the counterexample feeds it) Go renders `0`. -/
def fmtZero : Nat → List Char := fun _ => ['0']

theorem jsonEncodable_zeroReading : jsonEncodable zeroReading = true := by
  have h0 : float64Val 0 = .fin 0 := by norm_num [float64Val, f64Num]
  simp [jsonEncodable, f64IsFinite, zeroReading, h0]

theorem handleReadings_zero_result :
    handleReadings fmtZero registry490 ("GET".toList)
      ("/readings/490154203237518".toList)
      = (200, jsonReadingBody fmtZero zeroReading) := by
  unfold handleReadings
  rw [if_pos (by decide), if_pos rfl]
  have hreg : registry490
      (atoiDigits (("/readings/490154203237518".toList).drop 10))
      = some zeroReading := rfl
  rw [hreg]
  simp [jsonEncodable_zeroReading]

/-- C7 counterexample: for the well-formed request
`GET /readings/490154203237518` with the device present, the handler answers
200 but with a JSON object body, not five comma-separated decimal numbers. -/
theorem http_readings_counterexample :
    ¬ ((handleReadings fmtZero registry490 ("GET".toList)
          ("/readings/490154203237518".toList)).1 = 200
       ∧ isCsv5 (handleReadings fmtZero registry490 ("GET".toList)
          ("/readings/490154203237518".toList)).2) := by
  rintro ⟨-, hcsv⟩
  obtain ⟨n1, n2, n3, n4, n5, h1, -, -, -, -, hbody⟩ := hcsv
  have hhead : ((handleReadings fmtZero registry490 ("GET".toList)
      ("/readings/490154203237518".toList)).2).head? = some '\x7b' := by
    rw [handleReadings_zero_result]
    decide
  rw [hbody] at hhead
  match n1, h1, hhead with
  | [], h1, _ => exact h1.1 rfl
  | c :: cs, h1, hhead =>
    have hc : c = '\x7b' := by
      simp at hhead
      exact hhead
    have := h1.2 c (by simp)
    rw [hc] at this
    simp [numeralChars] at this

/-- C7 as amended: for every well-formed `GET /readings/{imei}` request with a
15-digit IMEI, the handler answers 204 when the device is absent from the
registry; when it is present it answers 200 with the JSON object body (field
`Reading`, then the five values in declaration order) if the stored reading is
marshallable (all five values finite), and 500 if the JSON encoding fails
(some value NaN or infinite). -/
theorem http_readings_characterization :
    ∀ (fmt : Nat → List Char) (registry : Nat → Option Reading) (ds : List Char),
      ds.length = 15 → (∀ c ∈ ds, c.isDigit = true) →
      handleReadings fmt registry ("GET".toList) (readingsPath ++ ds)
        = (match registry (atoiDigits ds) with
           | none => (204, "No Content\n".toList)
           | some r =>
             if jsonEncodable r then (200, jsonReadingBody fmt r)
             else (500, "Internal Server Error\n".toList)) := by
  intro fmt registry ds hlen hdig
  have htake : (readingsPath ++ ds).take 10 = readingsPath := by
    have : readingsPath.length = 10 := by decide
    rw [← this, List.take_left]
  have hdrop : (readingsPath ++ ds).drop 10 = ds := by
    have : readingsPath.length = 10 := by decide
    rw [← this, List.drop_left]
  unfold handleReadings
  rw [if_pos (by rw [htake, hdrop]; exact ⟨rfl, hlen, hdig⟩), if_pos rfl, hdrop]
  rcases hreg : registry (atoiDigits ds) with _ | r
  · rfl
  · dsimp only
    by_cases hj : jsonEncodable r = true
    · rw [if_pos hj, if_pos hj]
    · rw [if_neg hj, if_neg hj]
      rfl

/-- The reading whose temperature field is the NaN pattern of `nanBuf` (such
readings are publishable: the decoder accepts NaN fields). -/
def nanReading : Reading := ⟨9221120237041090560, 0, 0, 0, 0⟩

/-- A registry holding the spec's IMEI with the NaN-bearing reading. -/
def registryNaN : Nat → Option Reading :=
  fun i => if i = 490154203237518 then some nanReading else none

theorem jsonEncodable_nanReading : jsonEncodable nanReading = false := by
  have hv : float64Val 9221120237041090560 = .nan := by norm_num [float64Val]
  simp [jsonEncodable, f64IsFinite, nanReading, hv]

/-- Witness for the amended C7: the present-and-encodable, the absent, and the
present-but-NaN (json encode fails, 500) cases at the spec's IMEI. -/
theorem http_readings_characterization_witness :
    handleReadings fmtZero registry490 ("GET".toList)
        (readingsPath ++ ("490154203237518".toList))
      = (200, jsonReadingBody fmtZero zeroReading)
    ∧ handleReadings fmtZero (fun _ => none) ("GET".toList)
        (readingsPath ++ ("490154203237518".toList))
      = (204, "No Content\n".toList)
    ∧ handleReadings fmtZero registryNaN ("GET".toList)
        (readingsPath ++ ("490154203237518".toList))
      = (500, "Internal Server Error\n".toList) :=
  ⟨(http_readings_characterization fmtZero registry490
      ("490154203237518".toList) (by decide) (by decide)).trans
    (by
      have hreg : registry490 (atoiDigits ("490154203237518".toList))
          = some zeroReading := rfl
      rw [hreg]
      simp [jsonEncodable_zeroReading]),
   (http_readings_characterization fmtZero (fun _ => none)
      ("490154203237518".toList) (by decide) (by decide)).trans rfl,
   (http_readings_characterization fmtZero registryNaN
      ("490154203237518".toList) (by decide) (by decide)).trans
    (by
      have hreg : registryNaN (atoiDigits ("490154203237518".toList))
          = some nanReading := rfl
      rw [hreg]
      simp [jsonEncodable_nanReading])⟩

/-! ## Token bucket (client.go: bucketIncrementer and ProcessReadings) -/

/-- State of one client's token bucket together with the positions of the two
goroutines that touch it: `count` is the `safeUint64` bucket value (a Go
`uint64`); `incObs` is `some v` while the refiller sits between its
`bucket.get()` (which returned `v`) and the corresponding `set`/skip; `rdObs`
is true while the read loop sits between a successful nonzero admission check
and its `bucket.decrement()`. -/
structure BucketState where
  count : Nat
  incObs : Option Nat
  rdObs : Bool
deriving DecidableEq, Repr

/-- The bucket starts at the zero value of `safeUint64`, with both goroutines
outside their read-modify-write windows. -/
def bucketInit : BucketState := ⟨0, none, false⟩

/-- Atomic steps of the bucket, one per lock-protected operation of the
source: the refiller's `bucket.get()` on a ticker tick, its `bucket.set(v+1)`
when `v < max` (`max` = 10) or its skip otherwise; the read loop's admission
check `bucket.get() == 0` (spin) or nonzero (proceed to the 40-byte read), the
abandonment of an admitted iteration when the read fails with timeout/EOF, and
`bucket.decrement()` after a successful read (uint64 wrap-around spelled
out). -/
inductive BucketStep : BucketState → BucketState → Prop
  | incGet (s : BucketState) : s.incObs = none →
      BucketStep s ⟨s.count, some s.count, s.rdObs⟩
  | incSet (s : BucketState) (v : Nat) : s.incObs = some v → v < 10 →
      BucketStep s ⟨(v + 1) % 2 ^ 64, none, s.rdObs⟩
  | incSkip (s : BucketState) (v : Nat) : s.incObs = some v → ¬ v < 10 →
      BucketStep s ⟨s.count, none, s.rdObs⟩
  | readSpin (s : BucketState) : s.rdObs = false → s.count = 0 →
      BucketStep s s
  | readAdmit (s : BucketState) : s.rdObs = false → s.count ≠ 0 →
      BucketStep s ⟨s.count, s.incObs, true⟩
  | readAbort (s : BucketState) : s.rdObs = true →
      BucketStep s ⟨s.count, s.incObs, false⟩
  | readDec (s : BucketState) : s.rdObs = true →
      BucketStep s ⟨(s.count + (2 ^ 64 - 1)) % 2 ^ 64, s.incObs, false⟩

/-- Reachable bucket states, interleaving the two goroutines arbitrarily. -/
inductive BucketReachable : BucketState → Prop
  | init : BucketReachable bucketInit
  | step {s s2 : BucketState} :
      BucketReachable s → BucketStep s s2 → BucketReachable s2

/-- The inductive invariant: the count is at most the ceiling; a pending
refiller observation bounds the current count from above (only the reader can
change the count in between, and it only decrements); an admitted reader has a
token to consume. -/
def BucketInv (s : BucketState) : Prop :=
  s.count ≤ 10
  ∧ (∀ v, s.incObs = some v → s.count ≤ v ∧ v ≤ 10)
  ∧ (s.rdObs = true → 1 ≤ s.count)

theorem bucketInv_reachable (s : BucketState) (h : BucketReachable s) :
    BucketInv s := by
  induction h with
  | init =>
    refine ⟨by simp [bucketInit], ?_, by simp [bucketInit]⟩
    intro v hv
    simp [bucketInit] at hv
  | step hr hstep ih =>
    obtain ⟨hle, hinc, hrd⟩ := ih
    cases hstep with
    | incGet h1 =>
      refine ⟨hle, ?_, hrd⟩
      rintro v hv
      simp only [Option.some.injEq] at hv
      dsimp only
      omega
    | incSet v h1 h2 =>
      have hv1 : (v + 1) % 2 ^ 64 = v + 1 := Nat.mod_eq_of_lt (by omega)
      refine ⟨?_, ?_, ?_⟩
      · dsimp only
        omega
      · rintro w hw
        simp at hw
      · intro _
        dsimp only
        omega
    | incSkip v h1 h2 =>
      refine ⟨hle, ?_, hrd⟩
      rintro w hw
      simp at hw
    | readSpin h1 h2 => exact ⟨hle, hinc, hrd⟩
    | readAdmit h1 h2 =>
      refine ⟨hle, fun w hw => hinc w hw, ?_⟩
      intro _
      dsimp only
      omega
    | readAbort h1 =>
      refine ⟨hle, fun w hw => hinc w hw, ?_⟩
      intro h2
      simp at h2
    | readDec h1 =>
      have hc1 : 1 ≤ _ := hrd h1
      have hdec : ∀ c : Nat, 1 ≤ c → c ≤ 10 →
          (c + (2 ^ 64 - 1)) % 2 ^ 64 = c - 1 := by
        intro c hc hc10
        have h2 : c + (2 ^ 64 - 1) = (c - 1) + 2 ^ 64 := by omega
        rw [h2, Nat.add_mod_right, Nat.mod_eq_of_lt (by omega)]
      refine ⟨?_, ?_, ?_⟩
      · dsimp only
        rw [hdec _ hc1 hle]
        omega
      · rintro w hw
        dsimp only at hw
        have := hinc w hw
        dsimp only
        rw [hdec _ hc1 hle]
        omega
      · intro h2
        simp at h2

/-- C6: in every reachable state the token-bucket count satisfies
`0 ≤ count ≤ 10`; moreover whenever the read loop is about to consume a token
(`rdObs`), the count is at least 1, so the uint64 decrement never wraps below
zero and the refiller — which adds one token only when its observed value is
strictly below the ceiling — never pushes the count above 10. -/
theorem bucket_count_bounded (s : BucketState) (h : BucketReachable s) :
    (0 ≤ s.count ∧ s.count ≤ 10) ∧ (s.rdObs = true → 1 ≤ s.count) := by
  obtain ⟨h1, _, h3⟩ := bucketInv_reachable s h
  exact ⟨⟨Nat.zero_le _, h1⟩, h3⟩

/-- Witness for C6 at the initial bucket state. -/
theorem bucket_count_bounded_witness :
    (0 ≤ bucketInit.count ∧ bucketInit.count ≤ 10)
    ∧ (bucketInit.rdObs = true → 1 ≤ bucketInit.count) :=
  bucket_count_bounded bucketInit BucketReachable.init

/-! ## Acceptor and device registry (server ListenAndServe connection
goroutine with the `Exists` duplicate gate, `Store`, deferred `Delete`) -/

/-- Program counter of one accepted connection's goroutine after a successful
IMEI decode in `client.New`: `decoded` = about to run the duplicate check
`clientMap.Exists`; `toStore` = the check found the IMEI absent, about to
`clientMap.Store`; `loggingIn` = stored (with `clientMap.Delete` deferred),
running `ProcessLogin`; `streaming` = past the login gate, running
`ProcessReadings`; `deleting` = terminated (login failure, stream end or
cancellation), about to run the deferred `Delete`; `dropped` = the check found
a live session, connection dropped without storing; `done` = goroutine
exited. -/
inductive SessPc
  | decoded
  | toStore
  | loggingIn
  | streaming
  | deleting
  | dropped
  | done
deriving DecidableEq, Repr

/-- Global server state: the registry (`ClientMap`, keyed by IMEI, holding the
session currently stored under that key) and each session's program counter.
Sessions are named by naturals; the parameter `im` gives each session's
decoded IMEI (set once by `client.New`, immutable afterwards). -/
structure SrvState where
  reg : Nat → Option Nat
  pc : Nat → SessPc

/-- Initially the registry is empty and every session sits right after its
successful IMEI decode. -/
def srvInit : SrvState := ⟨fun _ => none, fun _ => .decoded⟩

/-- Atomic steps of the acceptor/registry model, following the connection
goroutine of the source: `checkAbsent`/`checkPresent` are the two outcomes of
`clientMap.Exists` — run after the successful IMEI decode and before
`ProcessLogin`, with a present IMEI dropping the connection before any store;
`store` is `clientMap.Store` (and registers the deferred `Delete`); `loginOk`
and `loginFail` are the outcomes of `ProcessLogin`; `streamEnd` is
`ProcessReadings` returning; `deleteStep` is the deferred `clientMap.Delete`;
`dropEnd` closes a dropped connection. -/
inductive SrvStep (im : Nat → Nat) : SrvState → SrvState → Prop
  | checkAbsent (s : SrvState) (sid : Nat) :
      s.pc sid = .decoded → s.reg (im sid) = none →
      SrvStep im s ⟨s.reg, fun x => if x = sid then .toStore else s.pc x⟩
  | checkPresent (s : SrvState) (sid other : Nat) :
      s.pc sid = .decoded → s.reg (im sid) = some other →
      SrvStep im s ⟨s.reg, fun x => if x = sid then .dropped else s.pc x⟩
  | store (s : SrvState) (sid : Nat) :
      s.pc sid = .toStore →
      SrvStep im s ⟨fun i => if i = im sid then some sid else s.reg i,
        fun x => if x = sid then .loggingIn else s.pc x⟩
  | loginOk (s : SrvState) (sid : Nat) :
      s.pc sid = .loggingIn →
      SrvStep im s ⟨s.reg, fun x => if x = sid then .streaming else s.pc x⟩
  | loginFail (s : SrvState) (sid : Nat) :
      s.pc sid = .loggingIn →
      SrvStep im s ⟨s.reg, fun x => if x = sid then .deleting else s.pc x⟩
  | streamEnd (s : SrvState) (sid : Nat) :
      s.pc sid = .streaming →
      SrvStep im s ⟨s.reg, fun x => if x = sid then .deleting else s.pc x⟩
  | deleteStep (s : SrvState) (sid : Nat) :
      s.pc sid = .deleting →
      SrvStep im s ⟨fun i => if i = im sid then none else s.reg i,
        fun x => if x = sid then .done else s.pc x⟩
  | dropEnd (s : SrvState) (sid : Nat) :
      s.pc sid = .dropped →
      SrvStep im s ⟨s.reg, fun x => if x = sid then .done else s.pc x⟩

/-- Reachable server states under arbitrary interleaving of the connection
goroutines. -/
inductive SrvReachable (im : Nat → Nat) : SrvState → Prop
  | init : SrvReachable im srvInit
  | step {s s2 : SrvState} :
      SrvReachable im s → SrvStep im s s2 → SrvReachable im s2

/-- The inductive registry invariant: every registry entry is keyed by its
session's IMEI, and that session has executed its `Store` and not yet its
deferred `Delete`. -/
def SrvInv (im : Nat → Nat) (s : SrvState) : Prop :=
  ∀ i sid, s.reg i = some sid →
    im sid = i ∧ (s.pc sid = .loggingIn ∨ s.pc sid = .streaming ∨ s.pc sid = .deleting)

theorem srvInv_reachable (im : Nat → Nat) (s : SrvState)
    (h : SrvReachable im s) : SrvInv im s := by
  induction h with
  | init =>
    intro i sid hreg
    simp [srvInit] at hreg
  | step hr hstep ih =>
    cases hstep with
    | checkAbsent sid h1 h2 =>
      intro i sid2 hreg
      obtain ⟨him, hpc⟩ := ih i sid2 hreg
      have hne : sid2 ≠ sid := by
        intro hEq
        rw [hEq, h1] at hpc
        rcases hpc with h | h | h <;> cases h
      refine ⟨him, ?_⟩
      dsimp only
      rw [if_neg hne]
      exact hpc
    | checkPresent sid other h1 h2 =>
      intro i sid2 hreg
      obtain ⟨him, hpc⟩ := ih i sid2 hreg
      have hne : sid2 ≠ sid := by
        intro hEq
        rw [hEq, h1] at hpc
        rcases hpc with h | h | h <;> cases h
      refine ⟨him, ?_⟩
      dsimp only
      rw [if_neg hne]
      exact hpc
    | store sid h1 =>
      intro i sid2 hreg
      dsimp only at hreg ⊢
      by_cases hi : i = im sid
      · rw [if_pos hi] at hreg
        injection hreg with hreg
        subst hreg
        rw [if_pos rfl, hi]
        exact ⟨rfl, Or.inl rfl⟩
      · rw [if_neg hi] at hreg
        obtain ⟨him, hpc⟩ := ih i sid2 hreg
        have hne : sid2 ≠ sid := by
          intro hEq
          rw [hEq, h1] at hpc
          rcases hpc with h | h | h <;> cases h
        rw [if_neg hne]
        exact ⟨him, hpc⟩
    | loginOk sid h1 =>
      intro i sid2 hreg
      obtain ⟨him, hpc⟩ := ih i sid2 hreg
      refine ⟨him, ?_⟩
      dsimp only
      by_cases hne : sid2 = sid
      · rw [if_pos hne]
        exact Or.inr (Or.inl rfl)
      · rw [if_neg hne]
        exact hpc
    | loginFail sid h1 =>
      intro i sid2 hreg
      obtain ⟨him, hpc⟩ := ih i sid2 hreg
      refine ⟨him, ?_⟩
      dsimp only
      by_cases hne : sid2 = sid
      · rw [if_pos hne]
        exact Or.inr (Or.inr rfl)
      · rw [if_neg hne]
        exact hpc
    | streamEnd sid h1 =>
      intro i sid2 hreg
      obtain ⟨him, hpc⟩ := ih i sid2 hreg
      refine ⟨him, ?_⟩
      dsimp only
      by_cases hne : sid2 = sid
      · rw [if_pos hne]
        exact Or.inr (Or.inr rfl)
      · rw [if_neg hne]
        exact hpc
    | deleteStep sid h1 =>
      intro i sid2 hreg
      dsimp only at hreg ⊢
      by_cases hi : i = im sid
      · rw [if_pos hi] at hreg
        cases hreg
      · rw [if_neg hi] at hreg
        obtain ⟨him, hpc⟩ := ih i sid2 hreg
        have hne : sid2 ≠ sid := by
          intro hEq
          rw [hEq] at him
          exact hi him.symm
        rw [if_neg hne]
        exact ⟨him, hpc⟩
    | dropEnd sid h1 =>
      intro i sid2 hreg
      obtain ⟨him, hpc⟩ := ih i sid2 hreg
      have hne : sid2 ≠ sid := by
        intro hEq
        rw [hEq, h1] at hpc
        rcases hpc with h | h | h <;> cases h
      refine ⟨him, ?_⟩
      dsimp only
      rw [if_neg hne]
      exact hpc

/-- The IMEI assignment used by the registry counterexample: every session
decodes the spec's IMEI 490154203237518. -/
def imAll490 : Nat → Nat := fun _ => 490154203237518

/-- C4 counterexample: "present in the registry iff past the login gate and
not yet terminated" fails — after `checkAbsent` and `store`, session 0 is in
the registry while still in its login phase (`ProcessLogin` not yet returned),
because the acceptor stores the session before driving the login, not after
it. -/
theorem registry_login_gate_counterexample :
    ¬ (∀ (im : Nat → Nat) (s : SrvState), SrvReachable im s →
      ∀ sid : Nat, (s.reg (im sid) = some sid ↔ s.pc sid = SessPc.streaming)) := by
  intro h
  have r2 : SrvReachable imAll490
      ⟨fun i => if i = imAll490 0 then some 0 else srvInit.reg i,
       fun x => if x = 0 then SessPc.loggingIn
         else (fun y => if y = 0 then SessPc.toStore else srvInit.pc y) x⟩ :=
    SrvReachable.step
      (SrvReachable.step SrvReachable.init
        (SrvStep.checkAbsent srvInit 0 rfl rfl))
      (SrvStep.store _ 0 rfl)
  have hiff := h imAll490 _ r2 0
  have hpresent := hiff.mp (by simp)
  simp at hpresent

/-- C4 as amended: in every reachable state the registry holds at most one
session per IMEI; every registry entry is keyed by its session's IMEI and that
session has passed the duplicate-check gate and executed its `Store` (it is in
its login phase, streaming, or awaiting its deferred `Delete`) — so presence
begins at the store after the duplicate check, before the login gate, not
after it; and a session dropped by the duplicate check is never in the
registry. -/
theorem registry_session_characterization (im : Nat → Nat) (s : SrvState)
    (h : SrvReachable im s) :
    (∀ i sid1 sid2, s.reg i = some sid1 → s.reg i = some sid2 → sid1 = sid2)
    ∧ (∀ i sid, s.reg i = some sid →
        im sid = i ∧ (s.pc sid = .loggingIn ∨ s.pc sid = .streaming
          ∨ s.pc sid = .deleting))
    ∧ (∀ sid, s.pc sid = .dropped → ∀ i, s.reg i ≠ some sid) := by
  have hinv := srvInv_reachable im s h
  refine ⟨?_, hinv, ?_⟩
  · intro i sid1 sid2 h1 h2
    rw [h1] at h2
    simpa using h2
  · intro sid hdrop i hreg
    obtain ⟨-, hpc⟩ := hinv i sid hreg
    rw [hdrop] at hpc
    rcases hpc with h | h | h <;> cases h

/-- Witness for the amended C4, at the initial state. -/
theorem registry_session_characterization_witness :
    (∀ i sid1 sid2, srvInit.reg i = some sid1 → srvInit.reg i = some sid2 →
      sid1 = sid2)
    ∧ (∀ i sid, srvInit.reg i = some sid →
        imAll490 sid = i ∧ (srvInit.pc sid = .loggingIn
          ∨ srvInit.pc sid = .streaming ∨ srvInit.pc sid = .deleting))
    ∧ (∀ sid, srvInit.pc sid = .dropped → ∀ i, srvInit.reg i ≠ some sid) :=
  registry_session_characterization imAll490 srvInit SrvReachable.init

/-! ## Login phase (client.go Client.ProcessLogin, timer variant) -/

/-- One attempted `io.ReadFull(c.Conn, b)` of the login loop, with the wall
time `d` it took: a read-deadline timeout (`net.Error` with `Timeout()` true,
`continue`), a plain `io.EOF` (`continue`), a completed 5-byte read carrying
its bytes, or any other error (returned as a transport error). -/
inductive LEvent
  | timeoutErr (d : ℚ)
  | eofErr (d : ℚ)
  | dataRead (d : ℚ) (bytes : List Nat)
  | hardErr (d : ℚ)
deriving DecidableEq, Repr

/-- Wall time consumed by one read attempt. -/
def LEvent.dur : LEvent → ℚ
  | .timeoutErr d => d
  | .eofErr d => d
  | .dataRead d _ => d
  | .hardErr d => d

/-- Whether the attempt completed a 5-byte read. -/
def LEvent.isData : LEvent → Bool
  | .dataRead _ _ => true
  | _ => false

/-- Whether the attempt failed with a non-timeout, non-EOF error. -/
def LEvent.isHard : LEvent → Bool
  | .hardErr _ => true
  | _ => false

/-- Results of `ProcessLogin`: nil, `ErrClientUnauthorized`,
`ErrClientLoginWindowExpired`, a wrapped transport error; `outOfTrace` marks a
finite trace too short to decide the outcome. -/
inductive LoginResult
  | ok
  | unauthorized
  | expired
  | transportErr
  | outOfTrace
deriving DecidableEq, Repr

/-- The ASCII bytes of the literal `login`. -/
def loginBytes : List Nat := [108, 111, 103, 105, 110]

/-- The loop of `Client.ProcessLogin` over a timed trace of read attempts
starting at time `now`, with the 1-second timer due at `dl`: each iteration's
select takes the fired timer first (returning the expiry error); otherwise the
default branch performs the next read — timeout errors and EOF continue the
loop, any other error returns it, and a completed read returns nil exactly on
a byte-wise match with `"login"` and `ErrClientUnauthorized` on any mismatch.
(Context/shutdown cancellation, which returns `ErrClientClose`, is not
exercised: the claims are about undisturbed runs.) -/
def processLoginAux (dl : ℚ) : ℚ → List LEvent → LoginResult
  | _, [] => .outOfTrace
  | now, e :: rest =>
    if dl ≤ now then .expired
    else
      match e with
      | .timeoutErr d => processLoginAux dl (now + d) rest
      | .eofErr d => processLoginAux dl (now + d) rest
      | .hardErr _ => .transportErr
      | .dataRead _ bs => if bs = loginBytes then .ok else .unauthorized

/-- Model of `Client.ProcessLogin` entered at time `t1`: its
`time.NewTimer(time.Second)` is due at `t1 + 1`. -/
def processLogin (t1 : ℚ) (tr : List LEvent) : LoginResult :=
  processLoginAux (t1 + 1) t1 tr

/-- The trace respects the connection read deadline that `client.New` set at
session creation time `t0` (`conn.SetDeadline(time.Now().Add(time.Second))`):
every completed read finishes strictly before `cap = t0 + 1` (event times
accumulate the durations of the earlier attempts). -/
def deadlineOK (cap : ℚ) : ℚ → List LEvent → Prop
  | _, [] => True
  | now, e :: rest =>
    (e.isData = true → now + e.dur < cap) ∧ deadlineOK cap (now + e.dur) rest

/-- Some select point of the trace lies at or beyond the timer expiry `dl`.
The real loop spins unboundedly, so the timer is always eventually observed; a
finite trace must be long enough to show it. -/
def crossesTimer (dl : ℚ) : ℚ → List LEvent → Prop
  | _, [] => False
  | now, e :: rest => dl ≤ now ∨ crossesTimer dl (now + e.dur) rest

/-- The bytes of the first completed read of the trace, if any. -/
def firstData : List LEvent → Option (List Nat)
  | [] => none
  | .dataRead _ bs :: _ => some bs
  | _ :: rest => firstData rest

theorem processLoginAux_expired (dl : ℚ) (tr : List LEvent) :
    ∀ now, (∀ e ∈ tr, e.isHard = false) → firstData tr = none →
      crossesTimer dl now tr → processLoginAux dl now tr = .expired := by
  induction tr with
  | nil => intro now _ _ hcross; cases hcross
  | cons e rest ih =>
    intro now hhard hdata hcross
    by_cases hnow : dl ≤ now
    · cases e <;> simp [processLoginAux, hnow]
    · have hcross2 : crossesTimer dl (now + e.dur) rest := by
        rcases hcross with h | h
        · exact absurd h hnow
        · exact h
      have hhard2 : ∀ x ∈ rest, x.isHard = false := fun x hx => hhard x (by simp [hx])
      cases e with
      | timeoutErr d =>
        simp only [processLoginAux, if_neg hnow]
        exact ih (now + d) hhard2 (by simpa [firstData] using hdata) (by simpa [LEvent.dur] using hcross2)
      | eofErr d =>
        simp only [processLoginAux, if_neg hnow]
        exact ih (now + d) hhard2 (by simpa [firstData] using hdata) (by simpa [LEvent.dur] using hcross2)
      | hardErr d =>
        have := hhard (.hardErr d) (by simp)
        simp [LEvent.isHard] at this
      | dataRead d bs =>
        simp [firstData] at hdata

theorem firstData_now_lt_cap (cap : ℚ) (tr : List LEvent) :
    ∀ now, (∀ e ∈ tr, 0 ≤ e.dur) → deadlineOK cap now tr →
      (∃ bs, firstData tr = some bs) → now < cap := by
  induction tr with
  | nil => intro now _ _ hex; simp [firstData] at hex
  | cons e rest ih =>
    intro now hdur hdl hex
    obtain ⟨h1, h2⟩ := hdl
    have hd0 : 0 ≤ e.dur := hdur e (by simp)
    cases e with
    | dataRead d bs =>
      have := h1 (by simp [LEvent.isData])
      simp only [LEvent.dur] at this
      have hd0 : (0 : ℚ) ≤ d := by simpa [LEvent.dur] using hd0
      linarith
    | timeoutErr d =>
      have hd0q : (0 : ℚ) ≤ d := by simpa [LEvent.dur] using hd0
      have h2d : deadlineOK cap (now + d) rest := by simpa [LEvent.dur] using h2
      have := ih (now + d) (fun x hx => hdur x (by simp [hx])) h2d
        (by simpa [firstData] using hex)
      linarith
    | eofErr d =>
      have hd0q : (0 : ℚ) ≤ d := by simpa [LEvent.dur] using hd0
      have h2d : deadlineOK cap (now + d) rest := by simpa [LEvent.dur] using h2
      have := ih (now + d) (fun x hx => hdur x (by simp [hx])) h2d
        (by simpa [firstData] using hex)
      linarith
    | hardErr d =>
      have hd0q : (0 : ℚ) ≤ d := by simpa [LEvent.dur] using hd0
      have h2d : deadlineOK cap (now + d) rest := by simpa [LEvent.dur] using h2
      have := ih (now + d) (fun x hx => hdur x (by simp [hx])) h2d
        (by simpa [firstData] using hex)
      linarith

theorem processLoginAux_data (dl cap : ℚ) (tr : List LEvent) (hcap : cap ≤ dl) :
    ∀ now, (∀ e ∈ tr, 0 ≤ e.dur) → (∀ e ∈ tr, e.isHard = false) →
      deadlineOK cap now tr →
      ∀ bs, firstData tr = some bs →
        processLoginAux dl now tr = (if bs = loginBytes then .ok else .unauthorized) := by
  induction tr with
  | nil => intro now _ _ _ bs hbs; simp [firstData] at hbs
  | cons e rest ih =>
    intro now hdur hhard hdl bs hbs
    have hlt : now < cap :=
      firstData_now_lt_cap cap (e :: rest) now hdur hdl ⟨bs, hbs⟩
    have hnow : ¬ dl ≤ now := by
      intro h
      linarith
    cases e with
    | dataRead d bs2 =>
      have hbs2 : bs2 = bs := by simpa [firstData] using hbs
      subst hbs2
      simp [processLoginAux, if_neg hnow]
    | timeoutErr d =>
      simp only [processLoginAux, if_neg hnow]
      exact ih (now + d) (fun x hx => hdur x (by simp [hx]))
        (fun x hx => hhard x (by simp [hx])) hdl.2 bs
        (by simpa [firstData] using hbs)
    | eofErr d =>
      simp only [processLoginAux, if_neg hnow]
      exact ih (now + d) (fun x hx => hdur x (by simp [hx]))
        (fun x hx => hhard x (by simp [hx])) hdl.2 bs
        (by simpa [firstData] using hbs)
    | hardErr d =>
      have := hhard (.hardErr d) (by simp)
      simp [LEvent.isHard] at this

/-- C5: for a session created at time `t0` whose login phase is entered at
`t1 ≥ t0`, over any read trace with nonnegative durations, no hard transport
error, and completed reads only strictly within the socket deadline `t0 + 1`
set at session creation: `ProcessLogin` returns the login-expired error
exactly when no complete 5-byte message arrives (the trace being long enough
for its timer to be observed); and when a complete 5-byte message does arrive
within the window, it returns nil precisely on the byte-wise match with
`"login"` and the unauthorized error on any mismatch. -/
theorem process_login_window (t0 t1 : ℚ) (tr : List LEvent)
    (ht : t0 ≤ t1)
    (hdur : ∀ e ∈ tr, 0 ≤ e.dur)
    (hhard : ∀ e ∈ tr, e.isHard = false)
    (hdl : deadlineOK (t0 + 1) t1 tr) :
    (firstData tr = none → crossesTimer (t1 + 1) t1 tr →
      processLogin t1 tr = .expired)
    ∧ (∀ bs, firstData tr = some bs →
      processLogin t1 tr = (if bs = loginBytes then .ok else .unauthorized)) := by
  constructor
  · intro hnone hcross
    exact processLoginAux_expired (t1 + 1) tr t1 hhard hnone hcross
  · intro bs hbs
    exact processLoginAux_data (t1 + 1) (t0 + 1) tr (by linarith) t1 hdur hhard
      hdl bs hbs

/-- Witness for C5: a trace delivering `login` immediately is accepted. -/
theorem process_login_window_witness :
    processLogin 0 [LEvent.dataRead 0 loginBytes] = .ok :=
  ((process_login_window 0 0 [LEvent.dataRead 0 loginBytes]
      le_rfl
      (by intro e he; simp at he; subst he; simp [LEvent.dur])
      (by intro e he; simp at he; subst he; simp [LEvent.isHard])
      (by refine ⟨fun _ => ?_, trivial⟩; simp [LEvent.dur])).2
    loginBytes rfl).trans (by simp)
